import Mathlib

/-!
Shallow embedding of `pymc/distributions/multivariate.py`: the closed-form
log-density, mean and mode expressions of the MvNormal, Dirichlet,
Multinomial and Wishart distributions.

Numeric tensors are modelled over `ℝ`: vectors as `Fin k → ℝ`, matrices as
`Matrix (Fin p) (Fin p) ℝ`.  The "bound" idiom of the source (compute the
raw log-density, then override the result with the floating-point value
`-inf` whenever a guard predicate fails) is modelled by the sum type
`LogpValue`, whose `negInf` constructor stands for the `-inf` sentinel.

The helper functions `bound`, `logpow`, `gammaln`, `factln` and
`multigammaln` live in the repository module `pymc/distributions/dist_math`
(imported by a star import), whose source is not available here; they are
modelled from the specification's description of their contracts.  The
backend linear-algebra primitives `det`, `solve`, `trace` and `dot`
(from theano) are modelled by the corresponding Mathlib matrix operations.
-/

open scoped Classical
open Matrix

/-- Result type of a bounded log-density computation: either a finite real
log-density or the negative-infinity sentinel. -/
inductive LogpValue where
| real : ℝ → LogpValue
| negInf : LogpValue

/-- Modelled from the spec: the `bound` wrapper of the missing module
`pymc/distributions/dist_math` computes the raw expression and then
overrides the result with `-inf` if any guard condition fails. -/
noncomputable def bound (raw : ℝ) (cond : Prop) : LogpValue :=
  if cond then LogpValue.real raw else LogpValue.negInf

/-- Modelled from the spec: `gammaln` of the missing module
`pymc/distributions/dist_math` is the log-gamma function `lgamma`. -/
noncomputable def gammaln (a : ℝ) : ℝ :=
  Real.log (Real.Gamma a)

/-- Modelled from the spec: `factln` of the missing module
`pymc/distributions/dist_math` is the log-factorial,
`factln n = log(n!) = lgamma(n+1)`. -/
noncomputable def factln (n : ℝ) : ℝ :=
  gammaln (n + 1)

/-- Modelled from the spec: `logpow x m` of the missing module
`pymc/distributions/dist_math` computes `m * log x`, the logarithm of
`x ^ m` (the spec's Dirichlet contract writes it as `(a_i-1)*log(x_i)`). -/
noncomputable def logpow (x m : ℝ) : ℝ :=
  m * Real.log x

/-- Modelled from the spec: `multigammaln p a` is the logarithm of the
multivariate (generalized) gamma function of order `p` evaluated at `a`,
`log Γ_p(a) = p(p-1)/4 · log π + ∑_{j<p} lgamma(a - j/2)`. -/
noncomputable def multigammaln (p : ℕ) (a : ℝ) : ℝ :=
  (p * (p - 1) : ℝ) / 4 * Real.log Real.pi +
    ∑ j ∈ Finset.range p, gammaln (a - j / 2)

/-- Models theano's `solve(V, X)`: the solution `Z` of `V Z = X`,
i.e. `V⁻¹ X`. -/
noncomputable def solve {p : ℕ} (V X : Matrix (Fin p) (Fin p) ℝ) :
    Matrix (Fin p) (Fin p) ℝ :=
  V⁻¹ * X

namespace MvNormal

/-- Log-density of the multivariate normal with mean `mu` and precision
matrix `tau`, from the source:
`1/2 * (-k * log(2*pi) + log(det(tau)) - dot(delta.T, dot(tau, delta)))`
with `delta = value - mu` and `k = tau.shape[0]`. -/
noncomputable def logp {k : ℕ} (mu : Fin k → ℝ) (tau : Matrix (Fin k) (Fin k) ℝ)
    (value : Fin k → ℝ) : ℝ :=
  let delta : Fin k → ℝ := value - mu
  1 / 2 * (-(k : ℝ) * Real.log (2 * Real.pi) + Real.log tau.det -
    delta ⬝ᵥ tau.mulVec delta)

end MvNormal

namespace Dirichlet

/-- Log-density of the Dirichlet distribution, from the source:
`bound(sum(logpow(value, a - 1) - gammaln(a)) + gammaln(sum(a)), k > 1, a > 0)`. -/
noncomputable def logp (k : ℕ) (a : Fin k → ℝ) (value : Fin k → ℝ) : LogpValue :=
  bound ((∑ i, (logpow (value i) (a i - 1) - gammaln (a i))) + gammaln (∑ i, a i))
    (1 < k ∧ ∀ i, 0 < a i)

/-- Dirichlet mean, from the source: `mean = a / sum(a)`. -/
noncomputable def mean (k : ℕ) (a : Fin k → ℝ) : Fin k → ℝ :=
  fun i => a i / ∑ j, a j

/-- Dirichlet mode, from the source:
`mode = switch(all(a > 1), (a - 1) / sum(a - 1), nan)`; the `nan` sentinel
of the non-applicable branch is modelled by `none`. -/
noncomputable def mode (k : ℕ) (a : Fin k → ℝ) : Option (Fin k → ℝ) :=
  if ∀ i, 1 < a i then some (fun i => (a i - 1) / ∑ j, (a j - 1)) else none

end Dirichlet

namespace Multinomial

/-- Log-density of the multinomial distribution, from the source:
`bound(factln(n) + sum(x * log(p) - factln(x)), n > 0, 0 <= x, x <= n)`. -/
noncomputable def logp {k : ℕ} (n : ℝ) (p : Fin k → ℝ) (x : Fin k → ℝ) : LogpValue :=
  bound (factln n + ∑ i, (x i * Real.log (p i) - factln (x i)))
    (0 < n ∧ ∀ i, 0 ≤ x i ∧ x i ≤ n)

/-- Multinomial mean, from the source: `mean = n * p` (elementwise). -/
noncomputable def mean {k : ℕ} (n : ℝ) (p : Fin k → ℝ) : Fin k → ℝ :=
  fun i => n * p i

end Multinomial

namespace Wishart

/-- Log-density of the Wishart distribution, from the source:
`IVI = det(V)`;
`bound(((n-p-1)*log(IVI) - trace(solve(V, X)) - n*p*log(2) - n*log(IVI)
 - 2*multigammaln(p, n/2)) / 2, n > p - 1)`. -/
noncomputable def logp (n : ℝ) (p : ℕ) (V : Matrix (Fin p) (Fin p) ℝ)
    (X : Matrix (Fin p) (Fin p) ℝ) : LogpValue :=
  let IVI := V.det
  bound (((n - p - 1) * Real.log IVI - (solve V X).trace - n * p * Real.log 2 -
    n * Real.log IVI - 2 * multigammaln p (n / 2)) / 2)
    ((p : ℝ) - 1 < n)

end Wishart

/-! Basic lemmas about the bound idiom. -/

theorem bound_of_cond {cond : Prop} (raw : ℝ) (h : cond) :
    bound raw cond = LogpValue.real raw :=
  if_pos h

theorem bound_of_not_cond {cond : Prop} (raw : ℝ) (h : ¬cond) :
    bound raw cond = LogpValue.negInf :=
  if_neg h

/-- C1: for every scalar `n`, dimension `p`, scale matrix `V` and value `X`,
the Wishart log-density equals
`((n-p-1)·log|V| − tr(V⁻¹X) − n·p·log 2 − n·log|V| − 2·log Γ_p(n/2)) / 2`,
with the two determinant terms in the literal unsimplified form
`(n-p-1)·log|V| … − n·log|V|`, and the result is the negative-infinity
sentinel unless `n > p - 1`. -/
theorem wishart_logp_closed_form (n : ℝ) (p : ℕ)
    (V X : Matrix (Fin p) (Fin p) ℝ) :
    Wishart.logp n p V X =
      if (p : ℝ) - 1 < n then
        LogpValue.real (((n - p - 1) * Real.log V.det - (V⁻¹ * X).trace -
          n * p * Real.log 2 - n * Real.log V.det -
          2 * multigammaln p (n / 2)) / 2)
      else LogpValue.negInf :=
  rfl

/-- C2: for every dimension `k`, concentration vector `a` (a scalar
concentration is first replicated to the constant length-`k` vector) and
value `x`, the Dirichlet log-density equals
`∑ i, ((a_i−1)·log x_i − lgamma a_i) + lgamma (∑ a)` whenever `k > 1` and
every `a_i > 0`, and is the negative-infinity sentinel otherwise. -/
theorem dirichlet_logp_closed_form (k : ℕ) (a x : Fin k → ℝ) :
    Dirichlet.logp k a x =
      if 1 < k ∧ ∀ i, 0 < a i then
        LogpValue.real ((∑ i, ((a i - 1) * Real.log (x i) -
          Real.log (Real.Gamma (a i)))) + Real.log (Real.Gamma (∑ i, a i)))
      else LogpValue.negInf := by
  by_cases h : 1 < k ∧ ∀ i, 0 < a i
  · rw [if_pos h]
    exact bound_of_cond _ h
  · rw [if_neg h]
    exact bound_of_not_cond _ h

/-- C3: for every trial count `n`, probability vector `p` and count vector
`x`, the Multinomial log-density equals
`log Γ(n+1) + ∑ i, (x_i·log p_i − log Γ(x_i+1))` — `log(n!)` computed via
the log-factorial `factln n = lgamma (n+1)` — whenever `n > 0` and
elementwise `0 ≤ x_i ≤ n`, and is the negative-infinity sentinel
otherwise. -/
theorem multinomial_logp_closed_form {k : ℕ} (n : ℝ) (p x : Fin k → ℝ) :
    Multinomial.logp n p x =
      if 0 < n ∧ ∀ i, 0 ≤ x i ∧ x i ≤ n then
        LogpValue.real (Real.log (Real.Gamma (n + 1)) +
          ∑ i, (x i * Real.log (p i) - Real.log (Real.Gamma (x i + 1))))
      else LogpValue.negInf := by
  by_cases h : 0 < n ∧ ∀ i, 0 ≤ x i ∧ x i ≤ n
  · rw [if_pos h]
    exact bound_of_cond _ h
  · rw [if_neg h]
    exact bound_of_not_cond _ h

/-- C4: for every mean vector `μ`, precision matrix `T` and value `x`, the
MvNormal log-density is the real scalar
`1/2 · (−k·log(2π) + log det T − (x−μ)ᵀ T (x−μ))`, the quadratic form
written out as a double sum. -/
theorem mvnormal_logp_closed_form {k : ℕ} (mu : Fin k → ℝ)
    (tau : Matrix (Fin k) (Fin k) ℝ) (x : Fin k → ℝ) :
    MvNormal.logp mu tau x =
      1 / 2 * (-(k : ℝ) * Real.log (2 * Real.pi) + Real.log tau.det -
        ∑ i, ∑ j, (x i - mu i) * tau i j * (x j - mu j)) := by
  have hq : (x - mu) ⬝ᵥ tau.mulVec (x - mu) =
      ∑ i, ∑ j, (x i - mu i) * tau i j * (x j - mu j) := by
    simp only [Matrix.dotProduct, Matrix.mulVec, Pi.sub_apply, Finset.mul_sum]
    exact Finset.sum_congr rfl fun i _ => Finset.sum_congr rfl fun j _ => by ring
  show 1 / 2 * (-(k : ℝ) * Real.log (2 * Real.pi) + Real.log tau.det -
    (x - mu) ⬝ᵥ tau.mulVec (x - mu)) = _
  rw [hq]

/-- C5: whenever a guard predicate of a bounded log-density is false
(Dirichlet with `k ≤ 1` or some `a_i ≤ 0`; Multinomial with `n ≤ 0` or some
`x_i < 0` or `x_i > n`; Wishart with `n ≤ p - 1`), the call returns the
negative-infinity sentinel; the functions are total, so no error is ever
raised and the result is always a usable value. -/
theorem bounded_logp_guard_negInf :
    (∀ (k : ℕ) (a x : Fin k → ℝ), (k ≤ 1 ∨ ∃ i, a i ≤ 0) →
      Dirichlet.logp k a x = LogpValue.negInf) ∧
    (∀ (k : ℕ) (n : ℝ) (p x : Fin k → ℝ), (n ≤ 0 ∨ ∃ i, x i < 0 ∨ n < x i) →
      Multinomial.logp n p x = LogpValue.negInf) ∧
    (∀ (n : ℝ) (p : ℕ) (V X : Matrix (Fin p) (Fin p) ℝ), n ≤ (p : ℝ) - 1 →
      Wishart.logp n p V X = LogpValue.negInf) := by
  refine ⟨fun k a x h => bound_of_not_cond _ ?_,
    fun k n p x h => bound_of_not_cond _ ?_,
    fun n p V X h => bound_of_not_cond _ ?_⟩
  · rintro ⟨hk, ha⟩
    rcases h with h | ⟨i, hi⟩
    · omega
    · exact absurd (ha i) (not_lt.mpr hi)
  · rintro ⟨hn, hx⟩
    rcases h with h | ⟨i, hi | hi⟩
    · exact absurd hn (not_lt.mpr h)
    · exact absurd (hx i).1 (not_le.mpr hi)
    · exact absurd (hx i).2 (not_le.mpr hi)
  · exact not_lt.mpr h

/-- Witness for C5: concrete guard violations for each distribution. -/
theorem bounded_logp_guard_negInf_witness :
    Dirichlet.logp 1 ![1] ![1] = LogpValue.negInf ∧
    Multinomial.logp 0 ![1] ![0] = LogpValue.negInf ∧
    Wishart.logp 0 1 1 1 = LogpValue.negInf :=
  ⟨bounded_logp_guard_negInf.1 1 ![1] ![1] (Or.inl (by norm_num)),
    bounded_logp_guard_negInf.2.1 1 0 ![1] ![0] (Or.inl (by norm_num)),
    bounded_logp_guard_negInf.2.2 0 1 1 1 (by norm_num)⟩

/-- C8: for every positive integer `n` and probability vector `p` with
`∑ p = 1`, the Multinomial mean equals `n * p` elementwise and its
components sum to `n`. -/
theorem multinomial_mean_sum {k : ℕ} (m : ℕ) (hm : 0 < m) (p : Fin k → ℝ)
    (hp : ∑ i, p i = 1) :
    (∀ i, Multinomial.mean (m : ℝ) p i = m * p i) ∧
    (∑ i, Multinomial.mean (m : ℝ) p i = m) := by
  refine ⟨fun i => rfl, ?_⟩
  simp only [Multinomial.mean]
  rw [← Finset.mul_sum, hp, mul_one]

/-- Witness for C8 at `n = 1`, `p = [1/2, 1/2]`. -/
theorem multinomial_mean_sum_witness :
    0 < 1 ∧ (∑ i, (![1 / 2, 1 / 2] : Fin 2 → ℝ) i) = 1 ∧
    ((∀ i, Multinomial.mean ((1 : ℕ) : ℝ) (![1 / 2, 1 / 2] : Fin 2 → ℝ) i =
        (1 : ℕ) * (![1 / 2, 1 / 2] : Fin 2 → ℝ) i) ∧
      (∑ i, Multinomial.mean ((1 : ℕ) : ℝ) (![1 / 2, 1 / 2] : Fin 2 → ℝ) i) =
        (1 : ℕ)) := by
  have hp : ∑ i, (![1 / 2, 1 / 2] : Fin 2 → ℝ) i = 1 := by
    norm_num [Fin.sum_univ_two]
  exact ⟨Nat.one_pos, hp, multinomial_mean_sum 1 Nat.one_pos _ hp⟩

/-- C10: the Multinomial guard tests only `n > 0` and elementwise
`0 ≤ x_i ≤ n`: for every such input with all `p_i > 0`, `logp` returns the
finite raw value `factln n + ∑ i, (x_i · log p_i − factln x_i)` even when
`∑ x ≠ n` or `∑ p ≠ 1` — those precondition violations are never converted
to the sentinel. -/
theorem multinomial_logp_guard_only {k : ℕ} (n : ℝ) (p x : Fin k → ℝ)
    (hn : 0 < n) (hx : ∀ i, 0 ≤ x i ∧ x i ≤ n) (hp : ∀ i, 0 < p i) :
    Multinomial.logp n p x =
      LogpValue.real (factln n + ∑ i, (x i * Real.log (p i) - factln (x i))) :=
  bound_of_cond _ ⟨hn, hx⟩

/-- Witness for C10 at `n = 2`, `p = [1, 1]` (sums to 2, not 1) and
`x = [1, 0]` (sums to 1, not `n`): the raw finite value is still
returned. -/
theorem multinomial_logp_guard_only_witness :
    0 < (2 : ℝ) ∧
    (∀ i, 0 ≤ (![1, 0] : Fin 2 → ℝ) i ∧ (![1, 0] : Fin 2 → ℝ) i ≤ 2) ∧
    (∀ i, 0 < (![1, 1] : Fin 2 → ℝ) i) ∧
    (∑ i, (![1, 0] : Fin 2 → ℝ) i) ≠ 2 ∧
    (∑ i, (![1, 1] : Fin 2 → ℝ) i) ≠ 1 ∧
    Multinomial.logp 2 ![1, 1] ![1, 0] =
      LogpValue.real (factln 2 + ∑ i, ((![1, 0] : Fin 2 → ℝ) i *
        Real.log ((![1, 1] : Fin 2 → ℝ) i) - factln ((![1, 0] : Fin 2 → ℝ) i))) := by
  have hx : ∀ i, 0 ≤ (![1, 0] : Fin 2 → ℝ) i ∧ (![1, 0] : Fin 2 → ℝ) i ≤ 2 := by
    intro i
    fin_cases i <;> norm_num
  have hp : ∀ i, 0 < (![1, 1] : Fin 2 → ℝ) i := by
    intro i
    fin_cases i <;> norm_num
  exact ⟨by norm_num, hx, hp, by norm_num [Fin.sum_univ_two],
    by norm_num [Fin.sum_univ_two],
    multinomial_logp_guard_only 2 ![1, 1] ![1, 0] (by norm_num) hx hp⟩

/-- C7: with `k = 2` and concentration `a = [1, 1]`, the Dirichlet
log-density is `0` at every valid value `x` with coordinates in `(0, 1)`
summing to `1` — the density is uniform on the simplex. -/
theorem dirichlet_uniform_logp_zero (x : Fin 2 → ℝ)
    (hx : ∀ i, 0 < x i ∧ x i < 1) (hsum : ∑ i, x i = 1) :
    Dirichlet.logp 2 ![1, 1] x = LogpValue.real 0 := by
  have hcond : 1 < 2 ∧ ∀ i : Fin 2, (0 : ℝ) < ![1, 1] i := by
    refine ⟨one_lt_two, fun i => ?_⟩
    fin_cases i <;> norm_num
  have h2 : Real.Gamma 2 = 1 := by
    rw [show (2 : ℝ) = (1 : ℕ) + 1 by norm_num, Real.Gamma_nat_eq_factorial]
    simp
  unfold Dirichlet.logp
  rw [bound_of_cond _ hcond]
  congr 1
  norm_num [logpow, gammaln, Fin.sum_univ_two, Real.Gamma_one, h2]

/-- Witness for C7 at `x = [1/2, 1/2]`. -/
theorem dirichlet_uniform_logp_zero_witness :
    (∀ i, 0 < (![1 / 2, 1 / 2] : Fin 2 → ℝ) i ∧
      (![1 / 2, 1 / 2] : Fin 2 → ℝ) i < 1) ∧
    (∑ i, (![1 / 2, 1 / 2] : Fin 2 → ℝ) i) = 1 ∧
    Dirichlet.logp 2 ![1, 1] ![1 / 2, 1 / 2] = LogpValue.real 0 := by
  have hx : ∀ i, 0 < (![1 / 2, 1 / 2] : Fin 2 → ℝ) i ∧
      (![1 / 2, 1 / 2] : Fin 2 → ℝ) i < 1 := by
    intro i
    fin_cases i <;> norm_num
  have hs : ∑ i, (![1 / 2, 1 / 2] : Fin 2 → ℝ) i = 1 := by
    norm_num [Fin.sum_univ_two]
  exact ⟨hx, hs, dirichlet_uniform_logp_zero ![1 / 2, 1 / 2] hx hs⟩

/-- C9 counterexample: for the empty concentration vector (`k = 0`) every
component is vacuously positive, yet the components of the Dirichlet mean
sum to `0`, not `1`, so the claim fails as stated. -/
theorem dirichlet_mean_empty_sum_ne_one :
    (∀ i : Fin 0, 0 < (fun _ => (1 : ℝ)) i) ∧
    (∑ i, Dirichlet.mean 0 (fun _ => (1 : ℝ)) i) ≠ 1 := by
  refine ⟨fun i => i.elim0, ?_⟩
  norm_num

/-- C9 (amended with nonemptiness): for every nonempty (`k ≥ 1`)
concentration vector `a` with all `a_i > 0`, the components of the Dirichlet
mean `a / ∑ a` are strictly positive and sum to `1`; when additionally all
`a_i > 1`, the mode `(a - 1) / ∑ (a - 1)` is defined and its components also
sum to `1`. -/
theorem dirichlet_mean_mode_simplex {k : ℕ} (hk : 0 < k) (a : Fin k → ℝ)
    (ha : ∀ i, 0 < a i) :
    (∀ i, 0 < Dirichlet.mean k a i) ∧
    (∑ i, Dirichlet.mean k a i) = 1 ∧
    ((∀ i, 1 < a i) → ∃ m, Dirichlet.mode k a = some m ∧ (∑ i, m i) = 1) := by
  haveI : Nonempty (Fin k) := Fin.pos_iff_nonempty.mp hk
  have hS : 0 < ∑ j, a j := Finset.sum_pos (fun i _ => ha i) Finset.univ_nonempty
  refine ⟨fun i => div_pos (ha i) hS, ?_, fun h1 => ?_⟩
  · simp only [Dirichlet.mean]
    rw [← Finset.sum_div, div_self hS.ne']
  · have hS1 : 0 < ∑ j, (a j - 1) :=
      Finset.sum_pos (fun i _ => sub_pos.mpr (h1 i)) Finset.univ_nonempty
    refine ⟨fun i => (a i - 1) / ∑ j, (a j - 1), ?_, ?_⟩
    · simp only [Dirichlet.mode]
      rw [if_pos h1]
    · rw [← Finset.sum_div, div_self hS1.ne']

/-- Witness for the amended C9 at `k = 1`, `a = [2]`. -/
theorem dirichlet_mean_mode_simplex_witness :
    0 < 1 ∧ (∀ i : Fin 1, 0 < (![2] : Fin 1 → ℝ) i) ∧
    ((∀ i, 0 < Dirichlet.mean 1 ![2] i) ∧
      (∑ i, Dirichlet.mean 1 ![2] i) = 1 ∧
      ((∀ i : Fin 1, 1 < (![2] : Fin 1 → ℝ) i) →
        ∃ m, Dirichlet.mode 1 ![2] = some m ∧ (∑ i, m i) = 1)) := by
  have ha : ∀ i : Fin 1, 0 < (![2] : Fin 1 → ℝ) i := by
    intro i
    fin_cases i <;> norm_num
  exact ⟨Nat.one_pos, ha, dirichlet_mean_mode_simplex Nat.one_pos ![2] ha⟩

/-! Permutation matrices and simultaneous row/column permutation. -/

/-- Permutation matrix of the permutation `σ`: row `i` has a single `1`,
in column `σ i`. -/
def permMatrix {p : ℕ} (σ : Equiv.Perm (Fin p)) : Matrix (Fin p) (Fin p) ℝ :=
  Matrix.of fun i j => if σ i = j then 1 else 0

theorem permMatrix_mul {p : ℕ} (σ : Equiv.Perm (Fin p))
    (A : Matrix (Fin p) (Fin p) ℝ) :
    permMatrix σ * A = A.submatrix σ id := by
  ext i j
  simp [permMatrix, Matrix.mul_apply, ite_mul]

theorem mul_permMatrix_transpose {p : ℕ} (σ : Equiv.Perm (Fin p))
    (A : Matrix (Fin p) (Fin p) ℝ) :
    A * (permMatrix σ)ᵀ = A.submatrix id σ := by
  ext i j
  simp [permMatrix, Matrix.mul_apply, Matrix.transpose_apply, mul_ite]

theorem permMatrix_conj {p : ℕ} (σ : Equiv.Perm (Fin p))
    (A : Matrix (Fin p) (Fin p) ℝ) :
    permMatrix σ * A * (permMatrix σ)ᵀ = A.submatrix σ σ := by
  rw [permMatrix_mul, mul_permMatrix_transpose, Matrix.submatrix_submatrix]
  rfl

theorem inv_submatrix_perm {p : ℕ} {V : Matrix (Fin p) (Fin p) ℝ}
    (hV : IsUnit V.det) (σ : Equiv.Perm (Fin p)) :
    (V.submatrix σ σ)⁻¹ = V⁻¹.submatrix σ σ := by
  apply Matrix.inv_eq_left_inv
  rw [Matrix.submatrix_mul_equiv, Matrix.nonsing_inv_mul V hV,
    Matrix.submatrix_one_equiv]

theorem trace_submatrix_perm {p : ℕ} (A : Matrix (Fin p) (Fin p) ℝ)
    (σ : Equiv.Perm (Fin p)) : (A.submatrix σ σ).trace = A.trace := by
  simp only [Matrix.trace, Matrix.diag, Matrix.submatrix_apply]
  exact Equiv.sum_comp σ fun j => A j j

/-- C6: the Wishart log-density is invariant under simultaneous permutation
of the rows and columns of the value and the scale: for every permutation
matrix `P` (of a permutation `σ`) and symmetric positive-definite `V` and
`X`, `logp` with scale `P·V·Pᵀ` at value `P·X·Pᵀ` equals `logp` with scale
`V` at value `X`. -/
theorem wishart_logp_perm_invariant (n : ℝ) (p : ℕ) (σ : Equiv.Perm (Fin p))
    (V X : Matrix (Fin p) (Fin p) ℝ) (hV : V.PosDef) (hX : X.PosDef) :
    Wishart.logp n p (permMatrix σ * V * (permMatrix σ)ᵀ)
      (permMatrix σ * X * (permMatrix σ)ᵀ) = Wishart.logp n p V X := by
  have hVdet : IsUnit V.det := isUnit_iff_ne_zero.mpr hV.det_pos.ne'
  rw [permMatrix_conj, permMatrix_conj]
  simp only [Wishart.logp, solve]
  rw [Matrix.det_submatrix_equiv_self, inv_submatrix_perm hVdet,
    Matrix.submatrix_mul_equiv, trace_submatrix_perm]

/-- Witness for C6 at `p = 2`, `σ` the transposition of the two indices and
`V = X = 1` (the identity matrix is positive definite). -/
theorem wishart_logp_perm_invariant_witness :
    Matrix.PosDef (1 : Matrix (Fin 2) (Fin 2) ℝ) ∧
    Wishart.logp 1 2
      (permMatrix (Equiv.swap 0 1) * 1 * (permMatrix (Equiv.swap 0 1))ᵀ)
      (permMatrix (Equiv.swap 0 1) * 1 * (permMatrix (Equiv.swap 0 1))ᵀ) =
      Wishart.logp 1 2 1 1 :=
  ⟨Matrix.PosDef.one,
    wishart_logp_perm_invariant 1 2 (Equiv.swap 0 1) 1 1 Matrix.PosDef.one
      Matrix.PosDef.one⟩
